import Mathlib

/-!
Shallow embedding of the per-client fair scheduler of
src/libsql-server/src/scheduler.rs, together with proofs about its
bookkeeping, dispatch and event loop.

The Rust channels are modelled by their observable content: the trace field
of the scheduler state records, in order, every job handed to the shared
worker pool or to a transaction channel.  The HashMap of client queues is an
association list, the two HashSets are duplicate-free lists.  Functions that
can panic in the source (the assert in update_queue_status, the unreachable
arm for a full transaction channel) return Option, with none for the panic.
-/

set_option maxHeartbeats 1000000

namespace LibsqlSched

/-- ClientId, as in the source: a plain integer. -/
abbrev ClientId := Nat

/-- A scheduled unit of work.  The source Job also carries parsed statements,
a responder and a back-channel sender; only the owning client id matters to
the scheduler logic, the statements are abstracted as a numeric tag. -/
structure Job where
  client_id : ClientId
  tag : Nat
deriving DecidableEq, Repr

/-- Observable status of a transaction channel at the moment of a
non-blocking try_send: the send succeeds, the receiver was dropped, or the
bounded buffer is full. -/
inductive ChanStatus where
  | ok
  | disconnected
  | full
deriving DecidableEq, Repr

/-- Per-client record, mirroring struct ClientQueue. -/
structure ClientQueue where
  queue : List Job := []
  active_txn : Option ChanStatus := none
  should_close : Bool := false
deriving DecidableEq, Repr

/-- Destination of a dispatched job: the shared worker pool or the client's
active transaction channel. -/
inductive Target where
  | pool
  | txn
deriving DecidableEq, Repr

/-- One dispatch: which kind of channel received which job. -/
structure DispEvent where
  target : Target
  job : Job
deriving DecidableEq, Repr

/-- Lookup in the queue map (the HashMap is an association list). -/
def alGet : List (ClientId × ClientQueue) → ClientId → Option ClientQueue
  | [], _ => none
  | p :: t, k => if p.1 = k then some p.2 else alGet t k

/-- Insert or replace in the queue map. -/
def alInsert : List (ClientId × ClientQueue) → ClientId → ClientQueue →
    List (ClientId × ClientQueue)
  | [], k, v => [(k, v)]
  | p :: t, k, v => if p.1 = k then (k, v) :: t else p :: alInsert t k v

/-- Remove a key from the queue map. -/
def alErase : List (ClientId × ClientQueue) → ClientId → List (ClientId × ClientQueue)
  | [], _ => []
  | p :: t, k => if p.1 = k then t else p :: alErase t k

/-- HashSet insert on a duplicate-free list. -/
def insertS (k : ClientId) (l : List ClientId) : List ClientId :=
  if k ∈ l then l else k :: l

/-- Scheduler state.  queues, ready_set and has_work_set are the fields of
struct Scheduler; trace is the ordered log of all jobs sent out on the
worker-pool channel or on a transaction channel. -/
structure Scheduler where
  queues : List (ClientId × ClientQueue) := []
  ready_set : List ClientId := []
  has_work_set : List ClientId := []
  trace : List DispEvent := []
deriving DecidableEq, Repr

/-- enum UpdateStateMessage.  The Sender of TxnBegin is modelled by the
status its try_send will observe. -/
inductive UpdateStateMessage where
  | ready (c : ClientId)
  | txnBegin (c : ClientId) (chan : ChanStatus)
  | txnEnded (c : ClientId)
deriving DecidableEq, Repr

/-- enum Action of a ServerMessage. -/
inductive Action where
  | disconnect
  | execute (tag : Nat)
deriving DecidableEq, Repr

/-- Scheduler::update_queue_status.  none models the panic of the assert on
TxnBegin when a transaction is already active. -/
def update_queue_status (s : Scheduler) : UpdateStateMessage → Option Scheduler
  | .ready c => some { s with ready_set := insertS c s.ready_set }
  | .txnBegin c chan =>
    match alGet s.queues c with
    | none => some s
    | some q =>
      if q.active_txn.isSome then none
      else some { s with queues := alInsert s.queues c { q with active_txn := some chan } }
  | .txnEnded c =>
    match alGet s.queues c with
    | none => some s
    | some q =>
      some { s with queues := alInsert s.queues c { q with active_txn := none },
                    ready_set := insertS c s.ready_set }

/-- Scheduler::update_queues: a ServerMessage with the given client id and
action. -/
def update_queues (s : Scheduler) (c : ClientId) : Action → Scheduler
  | .disconnect =>
    match alGet s.queues c with
    | none => s
    | some q => { s with queues := alInsert s.queues c { q with should_close := true } }
  | .execute tag =>
    match alGet s.queues c with
    | some q =>
      { s with queues := alInsert s.queues c { q with queue := q.queue ++ [⟨c, tag⟩] },
               has_work_set := insertS c s.has_work_set }
    | none =>
      { s with queues := alInsert s.queues c { queue := [⟨c, tag⟩] },
               ready_set := insertS c s.ready_set,
               has_work_set := insertS c s.has_work_set }

/-- Accumulators of Scheduler::schedule_work: the clients to drop from
ready_set and from has_work_set at the end of the pass. -/
structure PassAcc where
  notReady : List ClientId := []
  notWaiting : List ClientId := []
deriving DecidableEq, Repr

/-- Tail of the per-client dispatch step: the job goes to the shared worker
pool, then the client is retired from has_work (and a closing queue is
deleted) when its queue emptied. -/
def poolSend (s : Scheduler) (acc : PassAcc) (c : ClientId) (q : ClientQueue)
    (j : Job) : Scheduler × PassAcc :=
  let s1 : Scheduler :=
    { s with trace := s.trace ++ [⟨Target.pool, j⟩], queues := alInsert s.queues c q }
  if q.queue.isEmpty then
    (if q.should_close then { s1 with queues := alErase s1.queues c } else s1,
     { acc with notWaiting := c :: acc.notWaiting })
  else (s1, acc)

/-- Body of the dispatch loop of Scheduler::schedule_work for one client of
ready ∩ has_work.  none models the unreachable-panic on a full transaction
channel. -/
def dispatchOne (s : Scheduler) (acc : PassAcc) (c : ClientId) :
    Option (Scheduler × PassAcc) :=
  match alGet s.queues c with
  | none => some (s, ⟨c :: acc.notReady, c :: acc.notWaiting⟩)
  | some q =>
    match q.queue with
    | [] => some (s, ⟨acc.notReady, c :: acc.notWaiting⟩)
    | j :: rest =>
      match q.active_txn with
      | some ChanStatus.ok =>
        some ({ s with queues := alInsert s.queues c { q with queue := rest },
                       trace := s.trace ++ [⟨Target.txn, j⟩] },
              ⟨c :: acc.notReady, acc.notWaiting⟩)
      | some ChanStatus.disconnected =>
        some (poolSend s ⟨c :: acc.notReady, acc.notWaiting⟩ c
              { q with queue := rest, active_txn := none } j)
      | some ChanStatus.full => none
      | none =>
        some (poolSend s ⟨c :: acc.notReady, acc.notWaiting⟩ c
              { q with queue := rest } j)

/-- The clients the dispatch pass iterates over: ready ∩ has_work. -/
def eligible (s : Scheduler) : List ClientId :=
  s.ready_set.filter (fun c => decide (c ∈ s.has_work_set))

/-- The dispatch loop over the eligible clients. -/
def goPass (s : Scheduler) (acc : PassAcc) : List ClientId → Option (Scheduler × PassAcc)
  | [] => some (s, acc)
  | c :: cs =>
    match dispatchOne s acc c with
    | none => none
    | some (s1, acc1) => goPass s1 acc1 cs

/-- Scheduler::schedule_work: one dispatch pass, then removal of the
collected clients from the two bookkeeping sets. -/
def schedule_work (s : Scheduler) : Option Scheduler :=
  match goPass s ⟨[], []⟩ (eligible s) with
  | none => none
  | some (s1, acc) =>
    some { s1 with
            ready_set := s1.ready_set.filter (fun c => decide (c ∉ acc.notReady)),
            has_work_set := s1.has_work_set.filter (fun c => decide (c ∉ acc.notWaiting)) }

/-- One inbound event of the select loop of Scheduler::start: a server
message, the closing of the server channel, or a worker state update. -/
inductive Event where
  | srv (c : ClientId) (a : Action)
  | close
  | upd (m : UpdateStateMessage)
deriving DecidableEq, Repr

/-- Handling of a single inbound event, before the dispatch pass. -/
def handleEvent (s : Scheduler) : Event → Option Scheduler
  | .srv c a => some (update_queues s c a)
  | .close => some s
  | .upd m => update_queue_status s m

/-- One event-loop iteration: handle the event, then run a dispatch pass. -/
def step (s : Scheduler) (e : Event) : Option Scheduler :=
  match handleEvent s e with
  | none => none
  | some s1 => schedule_work s1

/-- Iterated event-loop body over a list of inbound events, without the exit
check. -/
def run : List Event → Scheduler → Option Scheduler
  | [], s => some s
  | e :: es, s =>
    match step s e with
    | none => none
    | some s1 => run es s1

/-- The freshly built scheduler of Scheduler::new: everything empty. -/
def init : Scheduler := {}

/-- Outcome of Scheduler::start on a finite inbound trace. -/
inductive LoopOutcome where
  | finished (s : Scheduler)
  | blocked (s : Scheduler)
  | panicked
deriving DecidableEq, Repr

/-- The exit predicate of the loop of Scheduler::start. -/
def exitNow (se : Bool) (s : Scheduler) : Bool :=
  se && s.has_work_set.isEmpty && (s.ready_set.length == s.queues.length)

/-- Is this event the closing of the server-message channel? -/
def isClose : Event → Bool
  | .close => true
  | _ => false

/-- The event loop of Scheduler::start on a finite trace of inbound events.
blocked means the trace is exhausted with the exit predicate never
satisfied: the source loop would keep waiting on its channels. -/
def loopRun (se : Bool) (s : Scheduler) : List Event → LoopOutcome
  | [] => .blocked s
  | e :: es =>
    match step s e with
    | none => .panicked
    | some s1 =>
      if exitNow (se || isClose e) s1 then .finished s1
      else loopRun (se || isClose e) s1 es

/-- Scheduler::start. -/
def start (s : Scheduler) (es : List Event) : LoopOutcome := loopRun false s es

/-- The jobs of a list that belong to client c, in order. -/
def ownedBy (c : ClientId) : List Job → List Job
  | [] => []
  | j :: t => if j.client_id = c then j :: ownedBy c t else ownedBy c t

/-- Jobs dispatched so far for client c, in order, across both targets. -/
def traceFor (s : Scheduler) (c : ClientId) : List Job :=
  ownedBy c (s.trace.map DispEvent.job)

/-- The buffered queue of client c ([] when no record exists). -/
def queuedFor (s : Scheduler) (c : ClientId) : List Job :=
  match alGet s.queues c with
  | none => []
  | some q => q.queue

/-- Dispatched-then-buffered jobs of client c; the quantity preserved by
every dispatch pass and extended only by Execute messages. -/
def ledger (s : Scheduler) (c : ClientId) : List Job :=
  traceFor s c ++ queuedFor s c

/-- The jobs client c submitted over an event list, in submission order. -/
def submittedFor (c : ClientId) : List Event → List Job
  | [] => []
  | Event.srv d (Action.execute t) :: es =>
    if d = c then ⟨d, t⟩ :: submittedFor c es else submittedFor c es
  | _ :: es => submittedFor c es

/-- The dispatch events a pass added on top of an earlier state. -/
def newEvents (s s1 : Scheduler) : List DispEvent :=
  s1.trace.drop s.trace.length

/-- The jobs a pass dispatched on top of an earlier state. -/
def newlyDispatched (s s1 : Scheduler) : List Job :=
  (s1.trace.drop s.trace.length).map DispEvent.job

/-- Every job buffered in a client record belongs to that client. -/
abbrev WellOwned (s : Scheduler) : Prop :=
  ∀ p ∈ s.queues, ∀ j ∈ p.2.queue, j.client_id = p.1

/-- The queue map binds each client at most once. -/
abbrev KeysNodup (s : Scheduler) : Prop :=
  (s.queues.map Prod.fst).Nodup

/-- Occurrence count in a list of client ids. -/
def countC (c : ClientId) : List ClientId → Nat
  | [] => 0
  | d :: t => (if d = c then 1 else 0) + countC c t

/-! ### Association-list and helper lemmas -/

theorem alGet_mem {m : List (ClientId × ClientQueue)} {k : ClientId} {q : ClientQueue}
    (h : alGet m k = some q) : (k, q) ∈ m := by
  induction m with
  | nil => simp [alGet] at h
  | cons p t ih =>
    simp only [alGet] at h
    by_cases hp : p.1 = k
    · rw [if_pos hp] at h
      have h2 : p.2 = q := by injection h
      have hpq : p = (k, q) := by
        cases p
        simp_all
      exact hpq ▸ List.mem_cons_self _ _
    · rw [if_neg hp] at h
      exact List.mem_cons_of_mem _ (ih h)

theorem mem_alInsert {m : List (ClientId × ClientQueue)} {k : ClientId} {v : ClientQueue}
    {p : ClientId × ClientQueue} (h : p ∈ alInsert m k v) : p = (k, v) ∨ p ∈ m := by
  induction m with
  | nil =>
    simp only [alInsert] at h
    rcases List.mem_cons.mp h with h1 | h1
    · exact Or.inl h1
    · simp at h1
  | cons hd t ih =>
    simp only [alInsert] at h
    by_cases hp : hd.1 = k
    · rw [if_pos hp] at h
      rcases List.mem_cons.mp h with h1 | h1
      · exact Or.inl h1
      · exact Or.inr (List.mem_cons_of_mem _ h1)
    · rw [if_neg hp] at h
      rcases List.mem_cons.mp h with h1 | h1
      · exact Or.inr (by rw [h1]; exact List.mem_cons_self _ _)
      · rcases ih h1 with h2 | h2
        · exact Or.inl h2
        · exact Or.inr (List.mem_cons_of_mem _ h2)

theorem mem_alErase {m : List (ClientId × ClientQueue)} {k : ClientId}
    {p : ClientId × ClientQueue} (h : p ∈ alErase m k) : p ∈ m := by
  induction m with
  | nil => simp [alErase] at h
  | cons hd t ih =>
    simp only [alErase] at h
    by_cases hp : hd.1 = k
    · rw [if_pos hp] at h
      exact List.mem_cons_of_mem _ h
    · rw [if_neg hp] at h
      rcases List.mem_cons.mp h with h1 | h1
      · exact (by rw [h1]; exact List.mem_cons_self _ _)
      · exact List.mem_cons_of_mem _ (ih h1)

theorem alGet_alInsert_self (m : List (ClientId × ClientQueue)) (k : ClientId)
    (v : ClientQueue) : alGet (alInsert m k v) k = some v := by
  induction m with
  | nil => simp [alInsert, alGet]
  | cons hd t ih =>
    simp only [alInsert]
    by_cases hp : hd.1 = k
    · rw [if_pos hp]
      simp [alGet]
    · rw [if_neg hp]
      simp only [alGet]
      rw [if_neg hp]
      exact ih

theorem alGet_alInsert_ne (m : List (ClientId × ClientQueue)) {k d : ClientId}
    (v : ClientQueue) (h : d ≠ k) : alGet (alInsert m k v) d = alGet m d := by
  induction m with
  | nil =>
    simp only [alInsert, alGet]
    rw [if_neg (Ne.symm h)]
  | cons hd t ih =>
    simp only [alInsert]
    by_cases hp : hd.1 = k
    · rw [if_pos hp]
      simp only [alGet]
      rw [if_neg (Ne.symm h)]
      have h2 : ¬hd.1 = d := by rw [hp]; exact Ne.symm h
      rw [if_neg h2]
    · rw [if_neg hp]
      simp only [alGet]
      by_cases hd2 : hd.1 = d
      · rw [if_pos hd2, if_pos hd2]
      · rw [if_neg hd2, if_neg hd2]
        exact ih

theorem alGet_alErase_ne (m : List (ClientId × ClientQueue)) {k d : ClientId}
    (h : d ≠ k) : alGet (alErase m k) d = alGet m d := by
  induction m with
  | nil => simp [alErase]
  | cons hd t ih =>
    simp only [alErase]
    by_cases hp : hd.1 = k
    · rw [if_pos hp]
      simp only [alGet]
      have h2 : ¬hd.1 = d := by rw [hp]; exact Ne.symm h
      rw [if_neg h2]
    · rw [if_neg hp]
      simp only [alGet]
      by_cases hd2 : hd.1 = d
      · rw [if_pos hd2, if_pos hd2]
      · rw [if_neg hd2, if_neg hd2]
        exact ih

theorem alGet_eq_none_of_not_mem (m : List (ClientId × ClientQueue)) {k : ClientId}
    (h : k ∉ m.map Prod.fst) : alGet m k = none := by
  induction m with
  | nil => simp [alGet]
  | cons hd t ih =>
    simp only [List.map_cons, List.mem_cons] at h
    push_neg at h
    simp only [alGet]
    rw [if_neg (Ne.symm h.1)]
    exact ih h.2

theorem mem_keys_alInsert {m : List (ClientId × ClientQueue)} {k a : ClientId}
    {v : ClientQueue} (h : a ∈ (alInsert m k v).map Prod.fst) :
    a = k ∨ a ∈ m.map Prod.fst := by
  rcases List.mem_map.mp h with ⟨p, hp, hpa⟩
  rcases mem_alInsert hp with h1 | h1
  · left
    rw [← hpa, h1]
  · right
    exact hpa ▸ List.mem_map_of_mem Prod.fst h1

theorem mem_keys_alErase {m : List (ClientId × ClientQueue)} {k a : ClientId}
    (h : a ∈ (alErase m k).map Prod.fst) : a ∈ m.map Prod.fst := by
  rcases List.mem_map.mp h with ⟨p, hp, hpa⟩
  exact hpa ▸ List.mem_map_of_mem Prod.fst (mem_alErase hp)

theorem keys_alInsert_nodup {m : List (ClientId × ClientQueue)} (k : ClientId)
    (v : ClientQueue) (h : (m.map Prod.fst).Nodup) :
    ((alInsert m k v).map Prod.fst).Nodup := by
  induction m with
  | nil => simp [alInsert]
  | cons hd t ih =>
    rw [List.map_cons, List.nodup_cons] at h
    simp only [alInsert]
    by_cases hp : hd.1 = k
    · rw [if_pos hp, List.map_cons, List.nodup_cons]
      exact ⟨hp ▸ h.1, h.2⟩
    · rw [if_neg hp, List.map_cons, List.nodup_cons]
      constructor
      · intro hmem
        rcases mem_keys_alInsert hmem with h1 | h1
        · exact hp h1
        · exact h.1 h1
      · exact ih h.2

theorem keys_alErase_nodup {m : List (ClientId × ClientQueue)} (k : ClientId)
    (h : (m.map Prod.fst).Nodup) : ((alErase m k).map Prod.fst).Nodup := by
  induction m with
  | nil => simp [alErase]
  | cons hd t ih =>
    rw [List.map_cons, List.nodup_cons] at h
    simp only [alErase]
    by_cases hp : hd.1 = k
    · rw [if_pos hp]
      exact h.2
    · rw [if_neg hp, List.map_cons, List.nodup_cons]
      exact ⟨fun hmem => h.1 (mem_keys_alErase hmem), ih h.2⟩

theorem alGet_alErase_self {m : List (ClientId × ClientQueue)} (k : ClientId)
    (h : (m.map Prod.fst).Nodup) : alGet (alErase m k) k = none := by
  induction m with
  | nil => simp [alErase, alGet]
  | cons hd t ih =>
    rw [List.map_cons, List.nodup_cons] at h
    simp only [alErase]
    by_cases hp : hd.1 = k
    · rw [if_pos hp]
      exact alGet_eq_none_of_not_mem t (hp ▸ h.1)
    · rw [if_neg hp]
      simp only [alGet]
      rw [if_neg hp]
      exact ih h.2

theorem mem_insertS {c d : ClientId} {l : List ClientId} :
    d ∈ insertS c l ↔ d = c ∨ d ∈ l := by
  unfold insertS
  by_cases h : c ∈ l
  · rw [if_pos h]
    constructor
    · exact Or.inr
    · rintro (rfl | hd)
      · exact h
      · exact hd
  · rw [if_neg h]
    exact List.mem_cons

theorem ownedBy_append (c : ClientId) (l1 l2 : List Job) :
    ownedBy c (l1 ++ l2) = ownedBy c l1 ++ ownedBy c l2 := by
  induction l1 with
  | nil => simp [ownedBy]
  | cons j t ih =>
    by_cases h : j.client_id = c
    · simp [ownedBy, h, ih]
    · simp [ownedBy, h, ih]

theorem ownedBy_eq_nil {c : ClientId} {l : List Job}
    (h : ∀ j ∈ l, j.client_id ≠ c) : ownedBy c l = [] := by
  induction l with
  | nil => simp [ownedBy]
  | cons j t ih =>
    have h1 : j.client_id ≠ c := h j (List.mem_cons_self _ _)
    simp only [ownedBy]
    rw [if_neg h1]
    exact ih fun x hx => h x (List.mem_cons_of_mem _ hx)

theorem countC_eq_zero {c : ClientId} {l : List ClientId} (h : c ∉ l) :
    countC c l = 0 := by
  induction l with
  | nil => simp [countC]
  | cons d t ih =>
    rw [List.mem_cons] at h
    push_neg at h
    simp only [countC]
    rw [if_neg (Ne.symm h.1), ih h.2]

theorem countC_le_one_of_nodup {c : ClientId} {l : List ClientId} (h : l.Nodup) :
    countC c l ≤ 1 := by
  induction l with
  | nil => simp [countC]
  | cons d t ih =>
    rw [List.nodup_cons] at h
    by_cases hd : d = c
    · subst hd
      simp only [countC]
      rw [countC_eq_zero h.1]
      simp
    · simp only [countC]
      rw [if_neg hd]
      simpa using ih h.2

/-! ### Branch equations for the dispatch step -/

theorem poolSend_nonempty_eq (s : Scheduler) (acc : PassAcc) (c : ClientId)
    (q : ClientQueue) (j : Job) (h : q.queue ≠ []) :
    poolSend s acc c q j =
      ({ s with trace := s.trace ++ [⟨Target.pool, j⟩],
                queues := alInsert s.queues c q }, acc) := by
  have he : q.queue.isEmpty = false := by
    cases hq : q.queue with
    | nil => exact absurd hq h
    | cons a t => rfl
  simp [poolSend, he]

theorem poolSend_empty_keep_eq (s : Scheduler) (acc : PassAcc) (c : ClientId)
    (q : ClientQueue) (j : Job) (h : q.queue = []) (hsc : q.should_close = false) :
    poolSend s acc c q j =
      ({ s with trace := s.trace ++ [⟨Target.pool, j⟩],
                queues := alInsert s.queues c q },
       { acc with notWaiting := c :: acc.notWaiting }) := by
  have he : q.queue.isEmpty = true := by rw [h]; rfl
  simp [poolSend, he, hsc]

theorem poolSend_empty_close_eq (s : Scheduler) (acc : PassAcc) (c : ClientId)
    (q : ClientQueue) (j : Job) (h : q.queue = []) (hsc : q.should_close = true) :
    poolSend s acc c q j =
      ({ s with trace := s.trace ++ [⟨Target.pool, j⟩],
                queues := alErase (alInsert s.queues c q) c },
       { acc with notWaiting := c :: acc.notWaiting }) := by
  have he : q.queue.isEmpty = true := by rw [h]; rfl
  simp [poolSend, he, hsc]

theorem dispatchOne_none_eq (s : Scheduler) (acc : PassAcc) (c : ClientId)
    (h : alGet s.queues c = none) :
    dispatchOne s acc c = some (s, ⟨c :: acc.notReady, c :: acc.notWaiting⟩) := by
  simp [dispatchOne, h]

theorem dispatchOne_nil_eq (s : Scheduler) (acc : PassAcc) (c : ClientId)
    {q : ClientQueue} (h : alGet s.queues c = some q) (hq : q.queue = []) :
    dispatchOne s acc c = some (s, ⟨acc.notReady, c :: acc.notWaiting⟩) := by
  simp [dispatchOne, h, hq]

theorem dispatchOne_txnOk_eq (s : Scheduler) (acc : PassAcc) (c : ClientId)
    {q : ClientQueue} {j : Job} {rest : List Job} (h : alGet s.queues c = some q)
    (hq : q.queue = j :: rest) (ht : q.active_txn = some ChanStatus.ok) :
    dispatchOne s acc c =
      some ({ s with queues := alInsert s.queues c { q with queue := rest },
                     trace := s.trace ++ [⟨Target.txn, j⟩] },
            ⟨c :: acc.notReady, acc.notWaiting⟩) := by
  simp [dispatchOne, h, hq, ht]

theorem dispatchOne_txnDisc_eq (s : Scheduler) (acc : PassAcc) (c : ClientId)
    {q : ClientQueue} {j : Job} {rest : List Job} (h : alGet s.queues c = some q)
    (hq : q.queue = j :: rest) (ht : q.active_txn = some ChanStatus.disconnected) :
    dispatchOne s acc c =
      some (poolSend s ⟨c :: acc.notReady, acc.notWaiting⟩ c
            { q with queue := rest, active_txn := none } j) := by
  simp [dispatchOne, h, hq, ht]

theorem dispatchOne_txnFull_eq (s : Scheduler) (acc : PassAcc) (c : ClientId)
    {q : ClientQueue} {j : Job} {rest : List Job} (h : alGet s.queues c = some q)
    (hq : q.queue = j :: rest) (ht : q.active_txn = some ChanStatus.full) :
    dispatchOne s acc c = none := by
  simp [dispatchOne, h, hq, ht]

theorem dispatchOne_noTxn_eq (s : Scheduler) (acc : PassAcc) (c : ClientId)
    {q : ClientQueue} {j : Job} {rest : List Job} (h : alGet s.queues c = some q)
    (hq : q.queue = j :: rest) (ht : q.active_txn = none) :
    dispatchOne s acc c =
      some (poolSend s ⟨c :: acc.notReady, acc.notWaiting⟩ c
            { q with queue := rest } j) := by
  simp [dispatchOne, h, hq, ht]

/-! ### Frame and invariant lemmas for the per-client dispatch step -/

theorem poolSend_parts (s : Scheduler) (acc : PassAcc) (c : ClientId)
    (q : ClientQueue) (j : Job) :
    (poolSend s acc c q j).1.ready_set = s.ready_set ∧
    (poolSend s acc c q j).1.has_work_set = s.has_work_set ∧
    (poolSend s acc c q j).1.trace = s.trace ++ [⟨Target.pool, j⟩] ∧
    (poolSend s acc c q j).2.notReady = acc.notReady ∧
    ((poolSend s acc c q j).2.notWaiting = acc.notWaiting ∨
      (poolSend s acc c q j).2.notWaiting = c :: acc.notWaiting) ∧
    (∀ d, d ≠ c → alGet (poolSend s acc c q j).1.queues d = alGet s.queues d) := by
  by_cases hqe : q.queue = []
  · cases hsc : q.should_close with
    | false =>
      rw [poolSend_empty_keep_eq s acc c q j hqe hsc]
      refine ⟨rfl, rfl, rfl, rfl, Or.inr rfl, ?_⟩
      intro d hd
      exact alGet_alInsert_ne _ _ hd
    | true =>
      rw [poolSend_empty_close_eq s acc c q j hqe hsc]
      refine ⟨rfl, rfl, rfl, rfl, Or.inr rfl, ?_⟩
      intro d hd
      rw [alGet_alErase_ne _ hd]
      exact alGet_alInsert_ne _ _ hd
  · rw [poolSend_nonempty_eq s acc c q j hqe]
    refine ⟨rfl, rfl, rfl, rfl, Or.inl rfl, ?_⟩
    intro d hd
    exact alGet_alInsert_ne _ _ hd

/-- Queue-record view of the state after a pool send: when a record for the
client survives, it is exactly the updated record. -/
theorem poolSend_get_self (s : Scheduler) (acc : PassAcc) (c : ClientId)
    (q : ClientQueue) (j : Job) (hK : KeysNodup s) :
    ∀ q2, alGet (poolSend s acc c q j).1.queues c = some q2 → q2 = q := by
  intro q2 hq2
  by_cases hqe : q.queue = []
  · cases hsc : q.should_close with
    | false =>
      rw [poolSend_empty_keep_eq s acc c q j hqe hsc] at hq2
      simp only at hq2
      rw [alGet_alInsert_self] at hq2
      injection hq2 with hh
      exact hh.symm
    | true =>
      rw [poolSend_empty_close_eq s acc c q j hqe hsc] at hq2
      simp only at hq2
      rw [alGet_alErase_self c (keys_alInsert_nodup c q hK)] at hq2
      cases hq2
  · rw [poolSend_nonempty_eq s acc c q j hqe] at hq2
    simp only at hq2
    rw [alGet_alInsert_self] at hq2
    injection hq2 with hh
    exact hh.symm

theorem poolSend_wellOwned (s : Scheduler) (acc : PassAcc) (c : ClientId)
    (q : ClientQueue) (j : Job) (hW : WellOwned s)
    (hq_own : ∀ jj ∈ q.queue, jj.client_id = c) :
    WellOwned (poolSend s acc c q j).1 := by
  have hins : WellOwned { s with trace := s.trace ++ [⟨Target.pool, j⟩],
                                 queues := alInsert s.queues c q } := by
    intro p hp jj hjj
    rcases mem_alInsert hp with h1 | h1
    · subst h1
      exact hq_own jj hjj
    · exact hW p h1 jj hjj
  by_cases hqe : q.queue = []
  · cases hsc : q.should_close with
    | false =>
      rw [poolSend_empty_keep_eq s acc c q j hqe hsc]
      exact hins
    | true =>
      rw [poolSend_empty_close_eq s acc c q j hqe hsc]
      intro p hp jj hjj
      exact hins p (mem_alErase hp) jj hjj
  · rw [poolSend_nonempty_eq s acc c q j hqe]
    exact hins

theorem poolSend_keysNodup (s : Scheduler) (acc : PassAcc) (c : ClientId)
    (q : ClientQueue) (j : Job) (hK : KeysNodup s) :
    KeysNodup (poolSend s acc c q j).1 := by
  have hins := keys_alInsert_nodup (m := s.queues) c q hK
  by_cases hqe : q.queue = []
  · cases hsc : q.should_close with
    | false =>
      rw [poolSend_empty_keep_eq s acc c q j hqe hsc]
      exact hins
    | true =>
      rw [poolSend_empty_close_eq s acc c q j hqe hsc]
      exact keys_alErase_nodup c hins
  · rw [poolSend_nonempty_eq s acc c q j hqe]
    exact hins

/-- Ledger preservation through a pool send: the job leaves the head of the
client's queue and is appended to the dispatch trace. -/
theorem poolSend_ledger (s : Scheduler) (acc : PassAcc) (c : ClientId)
    (q : ClientQueue) (j : Job) (hK : KeysNodup s)
    (hget : ∃ q0, alGet s.queues c = some q0 ∧ q0.queue = j :: q.queue)
    (hj : j.client_id = c) :
    ∀ d, ledger (poolSend s acc c q j).1 d = ledger s d := by
  intro d
  obtain ⟨q0, hq0, hq0q⟩ := hget
  obtain ⟨-, -, htr, -, -, hframe⟩ := poolSend_parts s acc c q j
  by_cases hd : d = c
  · subst hd
    have htf : traceFor (poolSend s acc d q j).1 d = traceFor s d ++ [j] := by
      unfold traceFor
      rw [htr, List.map_append, ownedBy_append]
      simp [ownedBy, hj]
    have hqf : queuedFor (poolSend s acc d q j).1 d = q.queue := by
      unfold queuedFor
      by_cases hqe : q.queue = []
      · cases hsc : q.should_close with
        | false =>
          rw [poolSend_empty_keep_eq s acc d q j hqe hsc]
          simp only
          rw [alGet_alInsert_self]
        | true =>
          rw [poolSend_empty_close_eq s acc d q j hqe hsc]
          simp only
          rw [alGet_alErase_self d (keys_alInsert_nodup d q hK), hqe]
      · rw [poolSend_nonempty_eq s acc d q j hqe]
        simp only
        rw [alGet_alInsert_self]
    unfold ledger
    rw [htf, hqf]
    unfold queuedFor
    rw [hq0]
    simp [hq0q]
  · have htf : traceFor (poolSend s acc c q j).1 d = traceFor s d := by
      unfold traceFor
      rw [htr, List.map_append, ownedBy_append]
      have : ownedBy d ([(⟨Target.pool, j⟩ : DispEvent)].map DispEvent.job) = [] := by
        apply ownedBy_eq_nil
        intro x hx
        simp at hx
        rw [hx, hj]
        exact Ne.symm hd
      simp only [this, List.append_nil]
    have hqf : queuedFor (poolSend s acc c q j).1 d = queuedFor s d := by
      unfold queuedFor
      rw [hframe d hd]
    unfold ledger
    rw [htf, hqf]

theorem dispatchOne_frame {s : Scheduler} {acc : PassAcc} {c : ClientId}
    {s1 : Scheduler} {acc1 : PassAcc} (h : dispatchOne s acc c = some (s1, acc1)) :
    s1.ready_set = s.ready_set ∧ s1.has_work_set = s.has_work_set ∧
    (∃ t, s1.trace = s.trace ++ t ∧ t.length ≤ 1) ∧
    (acc1.notReady = acc.notReady ∨ acc1.notReady = c :: acc.notReady) ∧
    (acc1.notWaiting = acc.notWaiting ∨ acc1.notWaiting = c :: acc.notWaiting) ∧
    (∀ d, d ≠ c → alGet s1.queues d = alGet s.queues d) ∧
    (s1.trace ≠ s.trace → c ∈ acc1.notReady) := by
  cases hga : alGet s.queues c with
  | none =>
    rw [dispatchOne_none_eq s acc c hga] at h
    simp only [Option.some.injEq, Prod.mk.injEq] at h
    obtain ⟨h1, h2⟩ := h
    subst h1
    subst h2
    exact ⟨rfl, rfl, ⟨[], by simp⟩, Or.inr rfl, Or.inr rfl, fun d _ => rfl,
           fun _ => List.mem_cons_self _ _⟩
  | some q =>
    cases hq : q.queue with
    | nil =>
      rw [dispatchOne_nil_eq s acc c hga hq] at h
      simp only [Option.some.injEq, Prod.mk.injEq] at h
      obtain ⟨h1, h2⟩ := h
      subst h1
      subst h2
      exact ⟨rfl, rfl, ⟨[], by simp⟩, Or.inl rfl, Or.inr rfl, fun d _ => rfl,
             fun hne => absurd rfl hne⟩
    | cons j rest =>
      cases ht : q.active_txn with
      | none =>
        rw [dispatchOne_noTxn_eq s acc c hga hq ht] at h
        injection h with h2
        have hs1 : s1 = (poolSend s ⟨c :: acc.notReady, acc.notWaiting⟩ c
            { q with queue := rest } j).1 := by rw [h2]
        have ha1 : acc1 = (poolSend s ⟨c :: acc.notReady, acc.notWaiting⟩ c
            { q with queue := rest } j).2 := by rw [h2]
        subst hs1
        subst ha1
        obtain ⟨p1, p2, p3, p4, p5, p6⟩ := poolSend_parts s
          ⟨c :: acc.notReady, acc.notWaiting⟩ c { q with queue := rest } j
        refine ⟨p1, p2, ⟨[⟨Target.pool, j⟩], p3, by simp⟩, Or.inr p4, ?_, p6, ?_⟩
        · rcases p5 with p5 | p5
          · exact Or.inl p5
          · exact Or.inr p5
        · intro
          rw [p4]
          exact List.mem_cons_self _ _
      | some st =>
        cases st with
        | ok =>
          rw [dispatchOne_txnOk_eq s acc c hga hq ht] at h
          simp only [Option.some.injEq, Prod.mk.injEq] at h
          obtain ⟨h1, h2⟩ := h
          subst h1
          subst h2
          refine ⟨rfl, rfl, ⟨[⟨Target.txn, j⟩], rfl, by simp⟩, Or.inr rfl, Or.inl rfl,
                  ?_, fun _ => List.mem_cons_self _ _⟩
          intro d hd
          exact alGet_alInsert_ne _ _ hd
        | disconnected =>
          rw [dispatchOne_txnDisc_eq s acc c hga hq ht] at h
          injection h with h2
          have hs1 : s1 = (poolSend s ⟨c :: acc.notReady, acc.notWaiting⟩ c
              { q with queue := rest, active_txn := none } j).1 := by rw [h2]
          have ha1 : acc1 = (poolSend s ⟨c :: acc.notReady, acc.notWaiting⟩ c
              { q with queue := rest, active_txn := none } j).2 := by rw [h2]
          subst hs1
          subst ha1
          obtain ⟨p1, p2, p3, p4, p5, p6⟩ := poolSend_parts s
            ⟨c :: acc.notReady, acc.notWaiting⟩ c
            { q with queue := rest, active_txn := none } j
          refine ⟨p1, p2, ⟨[⟨Target.pool, j⟩], p3, by simp⟩, Or.inr p4, ?_, p6, ?_⟩
          · rcases p5 with p5 | p5
            · exact Or.inl p5
            · exact Or.inr p5
          · intro
            rw [p4]
            exact List.mem_cons_self _ _
        | full =>
          rw [dispatchOne_txnFull_eq s acc c hga hq ht] at h
          cases h

theorem dispatchOne_spec {s : Scheduler} {acc : PassAcc} {c : ClientId}
    {s1 : Scheduler} {acc1 : PassAcc} (hW : WellOwned s) (hK : KeysNodup s)
    (h : dispatchOne s acc c = some (s1, acc1)) :
    WellOwned s1 ∧ KeysNodup s1 ∧
    (∃ t, s1.trace = s.trace ++ t ∧ ∀ ev ∈ t, ev.job.client_id = c) ∧
    (∀ d, ledger s1 d = ledger s d) := by
  cases hga : alGet s.queues c with
  | none =>
    rw [dispatchOne_none_eq s acc c hga] at h
    simp only [Option.some.injEq, Prod.mk.injEq] at h
    obtain ⟨h1, h2⟩ := h
    subst h1
    exact ⟨hW, hK, ⟨[], by simp⟩, fun d => rfl⟩
  | some q =>
    have hqown : ∀ jj ∈ q.queue, jj.client_id = c := hW _ (alGet_mem hga)
    cases hq : q.queue with
    | nil =>
      rw [dispatchOne_nil_eq s acc c hga hq] at h
      simp only [Option.some.injEq, Prod.mk.injEq] at h
      obtain ⟨h1, h2⟩ := h
      subst h1
      exact ⟨hW, hK, ⟨[], by simp⟩, fun d => rfl⟩
    | cons j rest =>
      have hj : j.client_id = c := hqown j (by rw [hq]; exact List.mem_cons_self _ _)
      have hrest : ∀ jj ∈ rest, jj.client_id = c := by
        intro jj hjj
        exact hqown jj (by rw [hq]; exact List.mem_cons_of_mem _ hjj)
      cases ht : q.active_txn with
      | none =>
        rw [dispatchOne_noTxn_eq s acc c hga hq ht] at h
        injection h with h2
        have hs1 : s1 = (poolSend s ⟨c :: acc.notReady, acc.notWaiting⟩ c
            { q with queue := rest } j).1 := by rw [h2]
        subst hs1
        obtain ⟨-, -, p3, -, -, -⟩ := poolSend_parts s
          ⟨c :: acc.notReady, acc.notWaiting⟩ c { q with queue := rest } j
        refine ⟨poolSend_wellOwned _ _ _ _ _ hW hrest, poolSend_keysNodup _ _ _ _ _ hK,
                ⟨[⟨Target.pool, j⟩], p3, by simp [hj]⟩, ?_⟩
        exact poolSend_ledger _ _ _ _ _ hK ⟨q, hga, by rw [hq]⟩ hj
      | some st =>
        cases st with
        | ok =>
          rw [dispatchOne_txnOk_eq s acc c hga hq ht] at h
          simp only [Option.some.injEq, Prod.mk.injEq] at h
          obtain ⟨h1, h2⟩ := h
          subst h1
          refine ⟨?_, keys_alInsert_nodup c _ hK, ⟨[⟨Target.txn, j⟩], rfl, by simp [hj]⟩, ?_⟩
          · intro p hp jj hjj
            rcases mem_alInsert hp with h1 | h1
            · subst h1
              exact hrest jj hjj
            · exact hW p h1 jj hjj
          · intro d
            by_cases hd : d = c
            · subst hd
              have htf : traceFor { s with
                    queues := alInsert s.queues d { q with queue := rest },
                    trace := s.trace ++ [⟨Target.txn, j⟩] } d = traceFor s d ++ [j] := by
                unfold traceFor
                simp only [List.map_append, ownedBy_append]
                simp [ownedBy, hj]
              unfold ledger
              rw [htf]
              unfold queuedFor
              simp only [alGet_alInsert_self, hga, hq]
              simp
            · have htf : traceFor { s with
                    queues := alInsert s.queues c { q with queue := rest },
                    trace := s.trace ++ [⟨Target.txn, j⟩] } d = traceFor s d := by
                unfold traceFor
                simp only [List.map_append, ownedBy_append]
                have : ownedBy d ([(⟨Target.txn, j⟩ : DispEvent)].map DispEvent.job) = [] := by
                  apply ownedBy_eq_nil
                  intro x hx
                  simp at hx
                  rw [hx, hj]
                  exact Ne.symm hd
                simp only [this, List.append_nil]
              unfold ledger
              rw [htf]
              unfold queuedFor
              simp only [alGet_alInsert_ne _ _ hd]
        | disconnected =>
          rw [dispatchOne_txnDisc_eq s acc c hga hq ht] at h
          injection h with h2
          have hs1 : s1 = (poolSend s ⟨c :: acc.notReady, acc.notWaiting⟩ c
              { q with queue := rest, active_txn := none } j).1 := by rw [h2]
          subst hs1
          obtain ⟨-, -, p3, -, -, -⟩ := poolSend_parts s
            ⟨c :: acc.notReady, acc.notWaiting⟩ c
            { q with queue := rest, active_txn := none } j
          refine ⟨poolSend_wellOwned _ _ _ _ _ hW hrest, poolSend_keysNodup _ _ _ _ _ hK,
                  ⟨[⟨Target.pool, j⟩], p3, by simp [hj]⟩, ?_⟩
          exact poolSend_ledger _ _ _ _ _ hK ⟨q, hga, by rw [hq]⟩ hj
        | full =>
          rw [dispatchOne_txnFull_eq s acc c hga hq ht] at h
          cases h

/-! ### Lemmas about the whole dispatch loop -/

theorem goPass_append (s : Scheduler) (acc : PassAcc) (xs ys : List ClientId) :
    goPass s acc (xs ++ ys) =
      match goPass s acc xs with
      | none => none
      | some (s1, acc1) => goPass s1 acc1 ys := by
  induction xs generalizing s acc with
  | nil => simp [goPass]
  | cons c t ih =>
    simp only [List.cons_append, goPass]
    cases hd : dispatchOne s acc c with
    | none => simp
    | some p =>
      obtain ⟨s2, acc2⟩ := p
      simp only
      exact ih s2 acc2

theorem goPass_frame {cs : List ClientId} {s : Scheduler} {acc : PassAcc}
    {s1 : Scheduler} {acc1 : PassAcc} (h : goPass s acc cs = some (s1, acc1)) :
    s1.ready_set = s.ready_set ∧ s1.has_work_set = s.has_work_set ∧
    (∃ t, s1.trace = s.trace ++ t) ∧
    (∀ x ∈ acc1.notReady, x ∈ cs ∨ x ∈ acc.notReady) ∧
    (∀ x ∈ acc1.notWaiting, x ∈ cs ∨ x ∈ acc.notWaiting) ∧
    (∀ x ∈ acc.notReady, x ∈ acc1.notReady) ∧
    (∀ x ∈ acc.notWaiting, x ∈ acc1.notWaiting) ∧
    (∀ d, d ∉ cs → alGet s1.queues d = alGet s.queues d) ∧
    (∀ d, d ∉ cs →
      (d ∈ acc1.notReady ↔ d ∈ acc.notReady) ∧
      (d ∈ acc1.notWaiting ↔ d ∈ acc.notWaiting)) := by
  induction cs generalizing s acc with
  | nil =>
    simp only [goPass, Option.some.injEq, Prod.mk.injEq] at h
    obtain ⟨h1, h2⟩ := h
    subst h1
    subst h2
    exact ⟨rfl, rfl, ⟨[], by simp⟩, fun x hx => Or.inr hx, fun x hx => Or.inr hx,
           fun x hx => hx, fun x hx => hx, fun d _ => rfl,
           fun d _ => ⟨Iff.rfl, Iff.rfl⟩⟩
  | cons c cs ih =>
    simp only [goPass] at h
    cases hd : dispatchOne s acc c with
    | none => rw [hd] at h; cases h
    | some p =>
      obtain ⟨s2, acc2⟩ := p
      rw [hd] at h
      simp only at h
      obtain ⟨f1, f2, ⟨t0, ht0, -⟩, f4, f5, f6, f7⟩ := dispatchOne_frame hd
      obtain ⟨g1, g2, ⟨t1, ht1⟩, g4, g5, g6, g7, g8, g9⟩ := ih h
      refine ⟨g1.trans f1, g2.trans f2, ⟨t0 ++ t1, by rw [ht1, ht0, List.append_assoc]⟩,
              ?_, ?_, ?_, ?_, ?_, ?_⟩
      · intro x hx
        rcases g4 x hx with h1 | h1
        · exact Or.inl (List.mem_cons_of_mem _ h1)
        · rcases f4 with f4 | f4
          · rw [f4] at h1
            exact Or.inr h1
          · rw [f4] at h1
            rcases List.mem_cons.mp h1 with h2 | h2
            · exact Or.inl (by rw [h2]; exact List.mem_cons_self _ _)
            · exact Or.inr h2
      · intro x hx
        rcases g5 x hx with h1 | h1
        · exact Or.inl (List.mem_cons_of_mem _ h1)
        · rcases f5 with f5 | f5
          · rw [f5] at h1
            exact Or.inr h1
          · rw [f5] at h1
            rcases List.mem_cons.mp h1 with h2 | h2
            · exact Or.inl (by rw [h2]; exact List.mem_cons_self _ _)
            · exact Or.inr h2
      · intro x hx
        apply g6
        rcases f4 with f4 | f4
        · rw [f4]; exact hx
        · rw [f4]; exact List.mem_cons_of_mem _ hx
      · intro x hx
        apply g7
        rcases f5 with f5 | f5
        · rw [f5]; exact hx
        · rw [f5]; exact List.mem_cons_of_mem _ hx
      · intro d hdcs
        rw [List.mem_cons] at hdcs
        push_neg at hdcs
        rw [g8 d hdcs.2]
        exact f6 d hdcs.1
      · intro d hdcs
        rw [List.mem_cons] at hdcs
        push_neg at hdcs
        obtain ⟨i1, i2⟩ := g9 d hdcs.2
        constructor
        · rw [i1]
          rcases f4 with f4 | f4
          · rw [f4]
          · rw [f4, List.mem_cons]
            constructor
            · rintro (h2 | h2)
              · exact absurd h2 hdcs.1
              · exact h2
            · exact Or.inr
        · rw [i2]
          rcases f5 with f5 | f5
          · rw [f5]
          · rw [f5, List.mem_cons]
            constructor
            · rintro (h2 | h2)
              · exact absurd h2 hdcs.1
              · exact h2
            · exact Or.inr

theorem goPass_inv {cs : List ClientId} {s : Scheduler} {acc : PassAcc}
    {s1 : Scheduler} {acc1 : PassAcc} (hW : WellOwned s) (hK : KeysNodup s)
    (h : goPass s acc cs = some (s1, acc1)) :
    WellOwned s1 ∧ KeysNodup s1 ∧ (∀ d, ledger s1 d = ledger s d) := by
  induction cs generalizing s acc with
  | nil =>
    simp only [goPass, Option.some.injEq, Prod.mk.injEq] at h
    obtain ⟨h1, h2⟩ := h
    subst h1
    exact ⟨hW, hK, fun d => rfl⟩
  | cons c cs ih =>
    simp only [goPass] at h
    cases hd : dispatchOne s acc c with
    | none => rw [hd] at h; cases h
    | some p =>
      obtain ⟨s2, acc2⟩ := p
      rw [hd] at h
      simp only at h
      obtain ⟨w2, k2, -, l2⟩ := dispatchOne_spec hW hK hd
      obtain ⟨w1, k1, l1⟩ := ih w2 k2 h
      exact ⟨w1, k1, fun d => (l1 d).trans (l2 d)⟩

theorem goPass_count {cs : List ClientId} {s : Scheduler} {acc : PassAcc}
    {s1 : Scheduler} {acc1 : PassAcc} (hW : WellOwned s) (hK : KeysNodup s)
    (h : goPass s acc cs = some (s1, acc1)) :
    ∃ t, s1.trace = s.trace ++ t ∧
      (∀ c, (ownedBy c (t.map DispEvent.job)).length ≤ countC c cs) ∧
      (∀ c, ownedBy c (t.map DispEvent.job) ≠ [] → c ∈ acc1.notReady) := by
  induction cs generalizing s acc with
  | nil =>
    simp only [goPass, Option.some.injEq, Prod.mk.injEq] at h
    obtain ⟨h1, h2⟩ := h
    subst h1
    subst h2
    exact ⟨[], by simp, fun c => by simp [ownedBy, countC], fun c hc => absurd rfl hc⟩
  | cons c cs ih =>
    simp only [goPass] at h
    cases hd : dispatchOne s acc c with
    | none => rw [hd] at h; cases h
    | some p =>
      obtain ⟨s2, acc2⟩ := p
      rw [hd] at h
      simp only at h
      obtain ⟨w2, k2, ⟨t0, ht0, hown0⟩, -⟩ := dispatchOne_spec hW hK hd
      obtain ⟨-, -, -, f4, -, -, f7⟩ := dispatchOne_frame hd
      obtain ⟨t0f, ht0f, hlen0⟩ := (dispatchOne_frame hd).2.2.1
      have ht0eq : t0f = t0 := by
        apply List.append_cancel_left
        rw [← ht0f, ← ht0]
      rw [ht0eq] at hlen0
      clear ht0f ht0eq
      obtain ⟨t1, ht1, hcnt, hne⟩ := ih w2 k2 h
      refine ⟨t0 ++ t1, by rw [ht1, ht0, List.append_assoc], ?_, ?_⟩
      · intro d
        rw [List.map_append, ownedBy_append, List.length_append]
        have h1len : (ownedBy d (t1.map DispEvent.job)).length ≤ countC d cs := hcnt d
        by_cases hdc : d = c
        · subst hdc
          have h0len : (ownedBy d (t0.map DispEvent.job)).length ≤ 1 := by
            calc (ownedBy d (t0.map DispEvent.job)).length
                ≤ (t0.map DispEvent.job).length := by
                  clear hown0
                  induction (t0.map DispEvent.job) with
                  | nil => simp [ownedBy]
                  | cons x xs ihx =>
                    by_cases hx : x.client_id = d
                    · simp only [ownedBy]
                      rw [if_pos hx]
                      simpa using ihx
                    · simp only [ownedBy]
                      rw [if_neg hx]
                      simp only [List.length_cons]
                      exact Nat.le_succ_of_le ihx
              _ = t0.length := by rw [List.length_map]
              _ ≤ 1 := hlen0
          simp [countC]
          omega
        · have h0nil : ownedBy d (t0.map DispEvent.job) = [] := by
            apply ownedBy_eq_nil
            intro x hx
            rcases List.mem_map.mp hx with ⟨ev, hev, hevx⟩
            rw [← hevx, hown0 ev hev]
            exact fun hh => hdc hh.symm
          rw [h0nil]
          simp only [countC, List.length_nil, Nat.zero_add]
          rw [if_neg (fun hh => hdc hh.symm)]
          omega
      · intro d hd2
        rw [List.map_append, ownedBy_append] at hd2
        by_cases h1 : ownedBy d (t1.map DispEvent.job) = []
        · rw [h1, List.append_nil] at hd2
          have hdc : d = c := by
            by_contra hdc
            apply hd2
            apply ownedBy_eq_nil
            intro x hx
            rcases List.mem_map.mp hx with ⟨ev, hev, hevx⟩
            rw [← hevx, hown0 ev hev]
            exact fun hh => hdc hh.symm
          subst hdc
          have ht0ne : t0 ≠ [] := by
            intro hnil
            rw [hnil] at hd2
            simp [ownedBy] at hd2
          have htrne : s2.trace ≠ s.trace := by
            rw [ht0]
            intro heq
            apply ht0ne
            have heq2 : s.trace ++ t0 = s.trace ++ [] := by
              rw [List.append_nil]
              exact heq
            exact List.append_cancel_left heq2
          have hmem2 : d ∈ acc2.notReady := f7 htrne
          obtain ⟨-, -, -, -, -, g6, -, -, -⟩ := goPass_frame h
          exact g6 d hmem2
        · exact hne d h1

/-! ### schedule_work, message handlers, and the event loop -/

theorem schedule_work_eq {s s1 : Scheduler} (h : schedule_work s = some s1) :
    ∃ s2 acc, goPass s ⟨[], []⟩ (eligible s) = some (s2, acc) ∧
      s1 = { s2 with
              ready_set := s2.ready_set.filter (fun c => decide (c ∉ acc.notReady)),
              has_work_set := s2.has_work_set.filter (fun c => decide (c ∉ acc.notWaiting)) } := by
  unfold schedule_work at h
  cases hg : goPass s ⟨[], []⟩ (eligible s) with
  | none => rw [hg] at h; cases h
  | some p =>
    obtain ⟨s2, acc⟩ := p
    rw [hg] at h
    simp only [Option.some.injEq] at h
    exact ⟨s2, acc, rfl, h.symm⟩

theorem schedule_work_inv {s s1 : Scheduler} (hW : WellOwned s) (hK : KeysNodup s)
    (h : schedule_work s = some s1) :
    WellOwned s1 ∧ KeysNodup s1 ∧ ∀ d, ledger s1 d = ledger s d := by
  obtain ⟨s2, acc, hg, rfl⟩ := schedule_work_eq h
  obtain ⟨w, k, l⟩ := goPass_inv hW hK hg
  exact ⟨w, k, l⟩

/-- The job a single event submits for client c ([] unless it is an Execute
for c). -/
def submittedOf (c : ClientId) : Event → List Job
  | Event.srv d (Action.execute t) => if d = c then [⟨d, t⟩] else []
  | _ => []

theorem submittedFor_cons (c : ClientId) (e : Event) (es : List Event) :
    submittedFor c (e :: es) = submittedOf c e ++ submittedFor c es := by
  cases e with
  | srv d a =>
    cases a with
    | disconnect => simp [submittedFor, submittedOf]
    | execute t =>
      by_cases hd : d = c
      · simp [submittedFor, submittedOf, hd]
      · simp [submittedFor, submittedOf, hd]
  | close => simp [submittedFor, submittedOf]
  | upd m => simp [submittedFor, submittedOf]

theorem update_queues_ledger {s : Scheduler} (c : ClientId) (a : Action)
    (hW : WellOwned s) (hK : KeysNodup s) :
    WellOwned (update_queues s c a) ∧ KeysNodup (update_queues s c a) ∧
    ∀ d, ledger (update_queues s c a) d = ledger s d ++ submittedOf d (Event.srv c a) := by
  cases a with
  | disconnect =>
    cases hga : alGet s.queues c with
    | none =>
      simp only [update_queues, hga]
      exact ⟨hW, hK, fun d => by simp [submittedOf]⟩
    | some q =>
      simp only [update_queues, hga]
      refine ⟨?_, keys_alInsert_nodup c _ hK, ?_⟩
      · intro p hp jj hjj
        rcases mem_alInsert hp with h1 | h1
        · subst h1
          exact hW _ (alGet_mem hga) jj hjj
        · exact hW p h1 jj hjj
      · intro d
        simp only [submittedOf, List.append_nil]
        unfold ledger traceFor queuedFor
        by_cases hd : d = c
        · subst hd
          simp only [alGet_alInsert_self, hga]
        · simp only [alGet_alInsert_ne _ _ hd]
  | execute tag =>
    cases hga : alGet s.queues c with
    | none =>
      simp only [update_queues, hga]
      refine ⟨?_, keys_alInsert_nodup c _ hK, ?_⟩
      · intro p hp jj hjj
        rcases mem_alInsert hp with h1 | h1
        · subst h1
          simp at hjj
          rw [hjj]
        · exact hW p h1 jj hjj
      · intro d
        unfold ledger traceFor queuedFor
        by_cases hd : d = c
        · subst hd
          simp only [alGet_alInsert_self, hga, submittedOf]
          simp
        · simp only [alGet_alInsert_ne _ _ hd, submittedOf]
          rw [if_neg (fun hh => hd hh.symm)]
          simp
    | some q =>
      simp only [update_queues, hga]
      refine ⟨?_, keys_alInsert_nodup c _ hK, ?_⟩
      · intro p hp jj hjj
        rcases mem_alInsert hp with h1 | h1
        · subst h1
          simp only at hjj
          rcases List.mem_append.mp hjj with h2 | h2
          · exact hW _ (alGet_mem hga) jj h2
          · simp at h2
            rw [h2]
        · exact hW p h1 jj hjj
      · intro d
        unfold ledger traceFor queuedFor
        by_cases hd : d = c
        · subst hd
          simp only [alGet_alInsert_self, hga, submittedOf]
          simp [List.append_assoc]
        · simp only [alGet_alInsert_ne _ _ hd, submittedOf]
          rw [if_neg (fun hh => hd hh.symm)]
          simp

theorem update_queue_status_ledger {s s1 : Scheduler} (m : UpdateStateMessage)
    (hW : WellOwned s) (hK : KeysNodup s) (h : update_queue_status s m = some s1) :
    WellOwned s1 ∧ KeysNodup s1 ∧ ∀ d, ledger s1 d = ledger s d := by
  cases m with
  | ready c =>
    simp only [update_queue_status, Option.some.injEq] at h
    subst h
    exact ⟨hW, hK, fun d => rfl⟩
  | txnBegin c chan =>
    cases hga : alGet s.queues c with
    | none =>
      simp only [update_queue_status, hga, Option.some.injEq] at h
      subst h
      exact ⟨hW, hK, fun d => rfl⟩
    | some q =>
      simp only [update_queue_status, hga] at h
      by_cases hsome : q.active_txn.isSome
      · rw [if_pos hsome] at h
        cases h
      · rw [if_neg hsome] at h
        simp only [Option.some.injEq] at h
        subst h
        refine ⟨?_, keys_alInsert_nodup c _ hK, ?_⟩
        · intro p hp jj hjj
          rcases mem_alInsert hp with h1 | h1
          · subst h1
            exact hW _ (alGet_mem hga) jj hjj
          · exact hW p h1 jj hjj
        · intro d
          unfold ledger traceFor queuedFor
          by_cases hd : d = c
          · subst hd
            simp only [alGet_alInsert_self, hga]
          · simp only [alGet_alInsert_ne _ _ hd]
  | txnEnded c =>
    cases hga : alGet s.queues c with
    | none =>
      simp only [update_queue_status, hga, Option.some.injEq] at h
      subst h
      exact ⟨hW, hK, fun d => rfl⟩
    | some q =>
      simp only [update_queue_status, hga, Option.some.injEq] at h
      subst h
      refine ⟨?_, keys_alInsert_nodup c _ hK, ?_⟩
      · intro p hp jj hjj
        rcases mem_alInsert hp with h1 | h1
        · subst h1
          exact hW _ (alGet_mem hga) jj hjj
        · exact hW p h1 jj hjj
      · intro d
        unfold ledger traceFor queuedFor
        by_cases hd : d = c
        · subst hd
          simp only [alGet_alInsert_self, hga]
        · simp only [alGet_alInsert_ne _ _ hd]

theorem step_ledger {s s1 : Scheduler} (e : Event) (hW : WellOwned s) (hK : KeysNodup s)
    (h : step s e = some s1) :
    WellOwned s1 ∧ KeysNodup s1 ∧ ∀ d, ledger s1 d = ledger s d ++ submittedOf d e := by
  unfold step handleEvent at h
  cases e with
  | srv c a =>
    simp only at h
    obtain ⟨w2, k2, l2⟩ := update_queues_ledger c a hW hK
    obtain ⟨w1, k1, l1⟩ := schedule_work_inv w2 k2 h
    exact ⟨w1, k1, fun d => (l1 d).trans (l2 d)⟩
  | close =>
    simp only at h
    obtain ⟨w1, k1, l1⟩ := schedule_work_inv hW hK h
    refine ⟨w1, k1, fun d => ?_⟩
    rw [l1 d]
    simp [submittedOf]
  | upd m =>
    simp only at h
    cases hu : update_queue_status s m with
    | none => rw [hu] at h; cases h
    | some s2 =>
      rw [hu] at h
      simp only at h
      obtain ⟨w2, k2, l2⟩ := update_queue_status_ledger m hW hK hu
      obtain ⟨w1, k1, l1⟩ := schedule_work_inv w2 k2 h
      refine ⟨w1, k1, fun d => ?_⟩
      rw [l1 d, l2 d]
      simp [submittedOf]

theorem run_ledger {es : List Event} {s s1 : Scheduler} (hW : WellOwned s)
    (hK : KeysNodup s) (h : run es s = some s1) :
    WellOwned s1 ∧ KeysNodup s1 ∧ ∀ d, ledger s1 d = ledger s d ++ submittedFor d es := by
  induction es generalizing s with
  | nil =>
    simp only [run, Option.some.injEq] at h
    subst h
    exact ⟨hW, hK, fun d => by simp [submittedFor]⟩
  | cons e es ih =>
    simp only [run] at h
    cases hs : step s e with
    | none => rw [hs] at h; cases h
    | some s2 =>
      rw [hs] at h
      simp only at h
      obtain ⟨w2, k2, l2⟩ := step_ledger e hW hK hs
      obtain ⟨w1, k1, l1⟩ := ih w2 k2 h
      refine ⟨w1, k1, fun d => ?_⟩
      rw [l1 d, l2 d, submittedFor_cons, List.append_assoc]

theorem mem_eligible {s : Scheduler} {c : ClientId} :
    c ∈ eligible s ↔ c ∈ s.ready_set ∧ c ∈ s.has_work_set := by
  unfold eligible
  rw [List.mem_filter]
  simp

theorem nodup_split_not_mem {l : List ClientId} {c : ClientId} (h : l.Nodup)
    (hc : c ∈ l) : ∃ l1 l2, l = l1 ++ c :: l2 ∧ c ∉ l1 ∧ c ∉ l2 := by
  obtain ⟨l1, l2, rfl⟩ := List.append_of_mem hc
  rw [List.nodup_append] at h
  obtain ⟨h1, h2, h3⟩ := h
  rw [List.nodup_cons] at h2
  refine ⟨l1, l2, rfl, ?_, h2.1⟩
  intro hmem
  exact h3 hmem (List.mem_cons_self _ _)

theorem goPass_split {s : Scheduler} {acc0 : PassAcc} {cs l1 l2 : List ClientId}
    {c : ClientId} {s2 : Scheduler} {acc : PassAcc} (hsplit : cs = l1 ++ c :: l2)
    (hg : goPass s acc0 cs = some (s2, acc)) :
    ∃ sA accA sB accB,
      goPass s acc0 l1 = some (sA, accA) ∧
      dispatchOne sA accA c = some (sB, accB) ∧
      goPass sB accB l2 = some (s2, acc) := by
  subst hsplit
  rw [goPass_append] at hg
  cases hA : goPass s acc0 l1 with
  | none => rw [hA] at hg; cases hg
  | some pA =>
    obtain ⟨sA, accA⟩ := pA
    rw [hA] at hg
    simp only at hg
    simp only [goPass] at hg
    cases hB : dispatchOne sA accA c with
    | none => rw [hB] at hg; cases hg
    | some pB =>
      obtain ⟨sB, accB⟩ := pB
      rw [hB] at hg
      simp only at hg
      exact ⟨sA, accA, sB, accB, rfl, hB, hg⟩

/-- A dispatch pass over clients whose records are all missing or empty only
repairs bookkeeping: the state is left untouched and no panic occurs. -/
theorem goPass_total_of_trivial {cs : List ClientId} {s : Scheduler} (acc : PassAcc)
    (h : ∀ c ∈ cs, alGet s.queues c = none ∨
      ∃ q, alGet s.queues c = some q ∧ q.queue = []) :
    ∃ acc1, goPass s acc cs = some (s, acc1) := by
  induction cs generalizing acc with
  | nil => exact ⟨acc, rfl⟩
  | cons c cs ih =>
    have hc := h c (List.mem_cons_self _ _)
    have hrest : ∀ d ∈ cs, alGet s.queues d = none ∨
        ∃ q, alGet s.queues d = some q ∧ q.queue = [] :=
      fun d hd => h d (List.mem_cons_of_mem _ hd)
    rcases hc with hc | ⟨q, hq1, hq2⟩
    · obtain ⟨acc1, hacc⟩ := ih ⟨c :: acc.notReady, c :: acc.notWaiting⟩ hrest
      refine ⟨acc1, ?_⟩
      simp only [goPass, dispatchOne_none_eq s acc c hc]
      exact hacc
    · obtain ⟨acc1, hacc⟩ := ih ⟨acc.notReady, c :: acc.notWaiting⟩ hrest
      refine ⟨acc1, ?_⟩
      simp only [goPass, dispatchOne_nil_eq s acc c hq1 hq2]
      exact hacc

/-! ### Claim theorems -/

/-- C1: Per-client FIFO dispatch.  Over any run of the event loop, the jobs
dispatched for a client c (whether to the worker pool or to c's transaction
channel) form, in dispatch order, a prefix of the jobs the server submitted
for c in submission order; hence of two Execute jobs of the same client, the
earlier-submitted one is always dispatched first. -/
theorem dispatch_is_fifo_per_client (es : List Event) (s : Scheduler) (c : ClientId)
    (h : run es init = some s) :
    ∃ rest, traceFor s c ++ rest = submittedFor c es := by
  have hW : WellOwned init := by
    intro p hp
    simp [init] at hp
  have hK : KeysNodup init := by decide
  obtain ⟨-, -, hl⟩ := run_ledger hW hK h
  have h2 := hl c
  unfold ledger at h2
  have h3 : traceFor init c = [] := by simp [traceFor, init, ownedBy]
  have h4 : queuedFor init c = [] := by simp [queuedFor, init, alGet]
  rw [h3, h4] at h2
  simp only [List.nil_append] at h2
  exact ⟨queuedFor s c, h2⟩

/-- Concrete two-job run used to witness C1. -/
def c1Events : List Event :=
  [Event.srv 0 (Action.execute 1), Event.srv 0 (Action.execute 2),
   Event.upd (UpdateStateMessage.ready 0)]

/-- The state the C1 witness run ends in. -/
def c1Final : Scheduler :=
  { queues := [(0, { queue := [], active_txn := none, should_close := false })],
    ready_set := [], has_work_set := [],
    trace := [⟨Target.pool, ⟨0, 1⟩⟩, ⟨Target.pool, ⟨0, 2⟩⟩] }

/-- Witness for C1: a concrete two-job run in which both jobs are dispatched
in submission order. -/
theorem dispatch_is_fifo_per_client_witness :
    run c1Events init = some c1Final ∧
    ∃ rest, traceFor c1Final 0 ++ rest = submittedFor 0 c1Events :=
  ⟨by decide, dispatch_is_fifo_per_client c1Events c1Final 0 (by decide)⟩

/-- Inbound trace refuting C3: two clients, two Execute jobs each, both
disconnect, the server channel closes, then the workers acknowledge each of
the four dispatched jobs exactly once (Ready(0) for the two jobs of client
0, Ready(1) for the two jobs of client 1, each sent after the corresponding
dispatch). -/
def c3Events : List Event :=
  [Event.srv 0 (Action.execute 1), Event.srv 0 (Action.execute 2),
   Event.srv 0 Action.disconnect,
   Event.srv 1 (Action.execute 3), Event.srv 1 (Action.execute 4),
   Event.srv 1 Action.disconnect,
   Event.close,
   Event.upd (UpdateStateMessage.ready 0), Event.upd (UpdateStateMessage.ready 0),
   Event.upd (UpdateStateMessage.ready 1), Event.upd (UpdateStateMessage.ready 1)]

/-- The quiescent state the C3 run is stuck in. -/
def c3Final : Scheduler :=
  { queues := [], ready_set := [1, 0], has_work_set := [],
    trace := [⟨Target.pool, ⟨0, 1⟩⟩, ⟨Target.pool, ⟨1, 3⟩⟩,
              ⟨Target.pool, ⟨0, 2⟩⟩, ⟨Target.pool, ⟨1, 4⟩⟩] }

/-- C3: refuted on the code.  On c3Events the server channel is closed and
every one of the four dispatched jobs is acknowledged exactly once, yet the
loop of start() never satisfies its exit predicate: the final Ready
acknowledgments arrive after the drained queues of the disconnected clients
were deleted, re-inserting both clients into ready_set for good, so
ready_set has 2 entries while the queue map is empty and
ready_set.len() == queues.len() never holds again.  The loop is left
blocked on its channels with all work done. -/
theorem start_never_returns_after_disconnect_drain :
    start init c3Events = LoopOutcome.blocked c3Final ∧
    c3Final.has_work_set = [] ∧ c3Final.queues = [] ∧
    c3Final.ready_set.length = 2 ∧
    c3Final.trace.map DispEvent.job =
      [⟨0, 1⟩, ⟨1, 3⟩, ⟨0, 2⟩, ⟨1, 4⟩] := by decide

/-- Inbound trace refuting C4: client 0's first job opens a transaction;
the follow-up job is dispatched to the transaction channel and is the last
queued job of the client. -/
def c4Events : List Event :=
  [Event.srv 0 (Action.execute 1), Event.upd (UpdateStateMessage.txnBegin 0 .ok),
   Event.srv 0 (Action.execute 2), Event.upd (UpdateStateMessage.ready 0)]

/-- The state right after the dispatch pass that sent client 0's last job to
its transaction channel. -/
def c4Final : Scheduler :=
  { queues := [(0, { queue := [], active_txn := some ChanStatus.ok,
                     should_close := false })],
    ready_set := [], has_work_set := [0],
    trace := [⟨Target.pool, ⟨0, 1⟩⟩, ⟨Target.txn, ⟨0, 2⟩⟩] }

/-- C4: refuted on the code.  After the pass in which client 0's last queued
job went to its active transaction channel, the client is still a member of
has_work_set although its queue is empty: the successful transaction-channel
send path of schedule_work skips the empty-queue bookkeeping, so invariant
I1 does not hold between loop iterations. -/
theorem has_work_invariant_fails_after_txn_dispatch :
    run c4Events init = some c4Final ∧
    0 ∈ c4Final.has_work_set ∧
    queuedFor c4Final 0 = [] ∧
    alGet c4Final.queues 0 =
      some { queue := [], active_txn := some ChanStatus.ok,
             should_close := false } := by decide

/-- Inbound trace refuting C5: client 0 opens a transaction, queues one more
job, disconnects; the queued job is dispatched to the transaction channel
(emptying the queue), and the transaction then ends. -/
def c5Events : List Event :=
  [Event.srv 0 (Action.execute 1), Event.upd (UpdateStateMessage.txnBegin 0 .ok),
   Event.srv 0 (Action.execute 2), Event.srv 0 Action.disconnect,
   Event.upd (UpdateStateMessage.ready 0), Event.upd (UpdateStateMessage.txnEnded 0)]

/-- The state after the drain: the closing record is still in the map. -/
def c5Final : Scheduler :=
  { queues := [(0, { queue := [], active_txn := none, should_close := true })],
    ready_set := [0], has_work_set := [],
    trace := [⟨Target.pool, ⟨0, 1⟩⟩, ⟨Target.txn, ⟨0, 2⟩⟩] }

/-- C5: refuted on the code.  The pass that popped client 0's last job sent
it to the transaction channel and, because that path skips the empty-queue
bookkeeping, did not delete the should_close record; the later pass that
runs after TxnEnded takes the empty-queue repair branch, which never deletes
records either.  The empty ClientQueue with should_close set survives both
passes. -/
theorem closing_queue_survives_txn_drain :
    run c5Events init = some c5Final ∧
    alGet c5Final.queues 0 =
      some { queue := [], active_txn := none, should_close := true } := by decide

/-- C2: Fairness within a pass.  From any state with duplicate-free
bookkeeping sets and well-owned queues, one call to schedule_work dispatches
at most one job belonging to any given client (counting both worker-pool and
transaction-channel sends), and a client for which a job was sent is no
longer in ready_set when the pass ends. -/
theorem schedule_work_fair_per_pass (s s1 : Scheduler) (c : ClientId)
    (hnd : s.ready_set.Nodup) (hW : WellOwned s) (hK : KeysNodup s)
    (h : schedule_work s = some s1) :
    (ownedBy c (newlyDispatched s s1)).length ≤ 1 ∧
    (ownedBy c (newlyDispatched s s1) ≠ [] → c ∉ s1.ready_set) := by
  obtain ⟨s2, acc, hg, rfl⟩ := schedule_work_eq h
  obtain ⟨t, ht, hcnt, hne⟩ := goPass_count hW hK hg
  have hElig : (eligible s).Nodup := hnd.filter _
  have hnew : newlyDispatched s
      { s2 with
        ready_set := s2.ready_set.filter (fun x => decide (x ∉ acc.notReady)),
        has_work_set := s2.has_work_set.filter (fun x => decide (x ∉ acc.notWaiting)) }
      = t.map DispEvent.job := by
    unfold newlyDispatched
    show (s2.trace.drop s.trace.length).map DispEvent.job = _
    rw [ht, List.drop_left]
  rw [hnew]
  constructor
  · have hle : countC c (eligible s) ≤ 1 := countC_le_one_of_nodup hElig
    exact (hcnt c).trans hle
  · intro hone
    have hmem := hne c hone
    intro hcmem
    have hcmem2 : c ∈ s2.ready_set.filter (fun x => decide (x ∉ acc.notReady)) := hcmem
    rcases List.mem_filter.mp hcmem2 with ⟨-, hdec⟩
    rw [decide_eq_true_eq] at hdec
    exact hdec hmem

/-- Concrete one-client state used to witness C2. -/
def c2State : Scheduler :=
  { queues := [(0, { queue := [⟨0, 9⟩], active_txn := none, should_close := false })],
    ready_set := [0], has_work_set := [0], trace := [] }

/-- The state after the witnessed C2 pass. -/
def c2After : Scheduler :=
  { queues := [(0, { queue := [], active_txn := none, should_close := false })],
    ready_set := [], has_work_set := [],
    trace := [⟨Target.pool, ⟨0, 9⟩⟩] }

/-- Witness for C2: a pass over a one-job client dispatches exactly that job
and retires the client from ready_set. -/
theorem schedule_work_fair_per_pass_witness :
    c2State.ready_set.Nodup ∧ WellOwned c2State ∧ KeysNodup c2State ∧
    schedule_work c2State = some c2After ∧
    ((ownedBy 0 (newlyDispatched c2State c2After)).length ≤ 1 ∧
     (ownedBy 0 (newlyDispatched c2State c2After) ≠ [] → 0 ∉ c2After.ready_set)) :=
  ⟨by decide, by decide, by decide, by decide,
   schedule_work_fair_per_pass c2State c2After 0 (by decide) (by decide) (by decide)
     (by decide)⟩

/-- C6: Transaction-channel-closed recovery.  If during a dispatch pass a
client at the head of ready ∩ has_work has a job j at the head of its queue
and its active transaction channel is observed disconnected, then the very
same job j is sent to the shared worker pool in that pass and any surviving
queue record of the client has its active_txn cleared. -/
theorem txn_disconnected_falls_back_to_pool (s s1 : Scheduler) (c : ClientId)
    (q : ClientQueue) (j : Job) (rest : List Job)
    (hnd : s.ready_set.Nodup) (hW : WellOwned s) (hK : KeysNodup s)
    (hr : c ∈ s.ready_set) (hwk : c ∈ s.has_work_set)
    (hget : alGet s.queues c = some q) (hq : q.queue = j :: rest)
    (ht : q.active_txn = some ChanStatus.disconnected)
    (h : schedule_work s = some s1) :
    (⟨Target.pool, j⟩ : DispEvent) ∈ newEvents s s1 ∧
    (∀ q2, alGet s1.queues c = some q2 → q2.active_txn = none) := by
  obtain ⟨s2, acc, hg, rfl⟩ := schedule_work_eq h
  have hcE : c ∈ eligible s := mem_eligible.mpr ⟨hr, hwk⟩
  have hEnd : (eligible s).Nodup := hnd.filter _
  obtain ⟨l1, l2, hsplit, hcl1, hcl2⟩ := nodup_split_not_mem hEnd hcE
  obtain ⟨sA, accA, sB, accB, hA, hB, hC⟩ := goPass_split hsplit hg
  obtain ⟨wA, kA, -⟩ := goPass_inv hW hK hA
  obtain ⟨-, -, ⟨tA, htA⟩, -, -, -, -, hframeA, -⟩ := goPass_frame hA
  have hgetA : alGet sA.queues c = some q := by rw [hframeA c hcl1]; exact hget
  rw [dispatchOne_txnDisc_eq sA accA c hgetA hq ht] at hB
  injection hB with hB2
  have hsB : sB = (poolSend sA ⟨c :: accA.notReady, accA.notWaiting⟩ c
      { q with queue := rest, active_txn := none } j).1 := by rw [hB2]
  obtain ⟨-, -, pTr, -, -, -⟩ := poolSend_parts sA ⟨c :: accA.notReady, accA.notWaiting⟩ c
      { q with queue := rest, active_txn := none } j
  have hgetB := poolSend_get_self sA ⟨c :: accA.notReady, accA.notWaiting⟩ c
      { q with queue := rest, active_txn := none } j kA
  obtain ⟨-, -, ⟨tC, htC⟩, -, -, -, -, hframeC, -⟩ := goPass_frame hC
  constructor
  · have hs2tr : s2.trace = s.trace ++ (tA ++ [⟨Target.pool, j⟩] ++ tC) := by
      rw [htC, hsB, pTr, htA]
      simp [List.append_assoc]
    have hnewc : newEvents s
        { s2 with
          ready_set := s2.ready_set.filter (fun x => decide (x ∉ acc.notReady)),
          has_work_set := s2.has_work_set.filter (fun x => decide (x ∉ acc.notWaiting)) }
        = tA ++ [⟨Target.pool, j⟩] ++ tC := by
      unfold newEvents
      show s2.trace.drop s.trace.length = _
      rw [hs2tr, List.drop_left]
    rw [hnewc]
    simp
  · intro q2 hq2
    have hq2a : alGet s2.queues c = some q2 := hq2
    rw [hframeC c hcl2, hsB] at hq2a
    have hq2b := hgetB q2 hq2a
    rw [hq2b]

/-- Concrete state used to witness C6: one client whose transaction channel
is already disconnected. -/
def c6State : Scheduler :=
  { queues := [(0, { queue := [⟨0, 4⟩], active_txn := some ChanStatus.disconnected,
                     should_close := false })],
    ready_set := [0], has_work_set := [0], trace := [] }

/-- The client record of the C6 witness state. -/
def c6Q : ClientQueue :=
  { queue := [⟨0, 4⟩], active_txn := some ChanStatus.disconnected,
    should_close := false }

/-- The state after the witnessed C6 pass. -/
def c6After : Scheduler :=
  { queues := [(0, { queue := [], active_txn := none, should_close := false })],
    ready_set := [], has_work_set := [],
    trace := [⟨Target.pool, ⟨0, 4⟩⟩] }

/-- Witness for C6: the job queued behind a disconnected transaction channel
is sent to the pool and active_txn is cleared. -/
theorem txn_disconnected_falls_back_to_pool_witness :
    c6State.ready_set.Nodup ∧ WellOwned c6State ∧ KeysNodup c6State ∧
    0 ∈ c6State.ready_set ∧ 0 ∈ c6State.has_work_set ∧
    alGet c6State.queues 0 = some c6Q ∧
    c6Q.queue = ⟨0, 4⟩ :: [] ∧
    c6Q.active_txn = some ChanStatus.disconnected ∧
    schedule_work c6State = some c6After ∧
    ((⟨Target.pool, ⟨0, 4⟩⟩ : DispEvent) ∈ newEvents c6State c6After ∧
     ∀ q2, alGet c6After.queues 0 = some q2 → q2.active_txn = none) :=
  ⟨by decide, by decide, by decide, by decide, by decide, by decide, by decide,
   by decide, by decide,
   txn_disconnected_falls_back_to_pool c6State c6After 0 c6Q ⟨0, 4⟩ []
     (by decide) (by decide) (by decide) (by decide) (by decide) (by decide)
     (by decide) (by decide) (by decide)⟩

/-- C7: TxnBegin handling.  With no queue record for the client the message
is ignored and the state is unchanged; with a record whose active_txn is
still clear, the handler succeeds (no assertion panic) and sets active_txn
to the given channel. -/
theorem txn_begin_sets_channel (s : Scheduler) (c : ClientId) (ch : ChanStatus) :
    (alGet s.queues c = none →
      update_queue_status s (UpdateStateMessage.txnBegin c ch) = some s) ∧
    (∀ q, alGet s.queues c = some q → q.active_txn = none →
      update_queue_status s (UpdateStateMessage.txnBegin c ch) =
        some { s with queues := alInsert s.queues c { q with active_txn := some ch } }) := by
  constructor
  · intro hga
    simp [update_queue_status, hga]
  · intro q hga hnone
    simp [update_queue_status, hga, hnone]

/-- Concrete state used to witness C7. -/
def c7State : Scheduler :=
  { queues := [(0, { queue := [], active_txn := none, should_close := false })],
    ready_set := [], has_work_set := [], trace := [] }

/-- Witness for C7: the missing-record case is a no-op and the present,
transaction-free record receives the channel. -/
theorem txn_begin_sets_channel_witness :
    alGet c7State.queues 5 = none ∧
    update_queue_status c7State (UpdateStateMessage.txnBegin 5 ChanStatus.ok) =
      some c7State ∧
    alGet c7State.queues 0 =
      some { queue := [], active_txn := none, should_close := false } ∧
    update_queue_status c7State (UpdateStateMessage.txnBegin 0 ChanStatus.ok) =
      some { c7State with queues := alInsert c7State.queues 0 { queue := [], active_txn := some ChanStatus.ok, should_close := false } } :=
  ⟨by decide,
   (txn_begin_sets_channel c7State 5 ChanStatus.ok).1 (by decide),
   by decide,
   (txn_begin_sets_channel c7State 0 ChanStatus.ok).2
     { queue := [], active_txn := none, should_close := false } (by decide) (by decide)⟩

/-- C8: Disconnect only sets the flag.  With no record the message is a
complete no-op; with a record, only that record's should_close becomes true:
its buffered jobs and active_txn are kept, every other client's record is
untouched, and ready_set, has_work_set and the dispatch trace are unchanged. -/
theorem disconnect_only_sets_flag (s : Scheduler) (c : ClientId) :
    (alGet s.queues c = none → update_queues s c Action.disconnect = s) ∧
    (∀ q, alGet s.queues c = some q →
      alGet (update_queues s c Action.disconnect).queues c =
        some { queue := q.queue, active_txn := q.active_txn, should_close := true } ∧
      (∀ d, d ≠ c →
        alGet (update_queues s c Action.disconnect).queues d = alGet s.queues d) ∧
      (update_queues s c Action.disconnect).ready_set = s.ready_set ∧
      (update_queues s c Action.disconnect).has_work_set = s.has_work_set ∧
      (update_queues s c Action.disconnect).trace = s.trace) := by
  constructor
  · intro hga
    simp [update_queues, hga]
  · intro q hga
    simp only [update_queues, hga]
    refine ⟨?_, ?_, by trivial, by trivial, by trivial⟩
    · rw [alGet_alInsert_self]
    · intro d hd
      exact alGet_alInsert_ne _ _ hd

/-- Concrete state used to witness C8. -/
def c8State : Scheduler :=
  { queues := [(2, { queue := [⟨2, 1⟩], active_txn := none, should_close := false }),
               (3, { queue := [⟨3, 7⟩], active_txn := none, should_close := false })],
    ready_set := [2, 3], has_work_set := [2, 3], trace := [] }

/-- Witness for C8: disconnecting client 2 flips only its flag. -/
theorem disconnect_only_sets_flag_witness :
    alGet c8State.queues 2 =
      some { queue := [⟨2, 1⟩], active_txn := none, should_close := false } ∧
    (alGet (update_queues c8State 2 Action.disconnect).queues 2 =
      some { queue := [⟨2, 1⟩], active_txn := none, should_close := true } ∧
     (∀ d, d ≠ 2 →
       alGet (update_queues c8State 2 Action.disconnect).queues d =
         alGet c8State.queues d) ∧
     (update_queues c8State 2 Action.disconnect).ready_set = c8State.ready_set ∧
     (update_queues c8State 2 Action.disconnect).has_work_set = c8State.has_work_set ∧
     (update_queues c8State 2 Action.disconnect).trace = c8State.trace) :=
  ⟨by decide,
   (disconnect_only_sets_flag c8State 2).2
     { queue := [⟨2, 1⟩], active_txn := none, should_close := false } (by decide)⟩

/-- Inbound trace producing a stale ready entry for C9: the disconnected
client's queue is drained and deleted, then a late Ready(0) arrives. -/
def c9Events : List Event :=
  [Event.srv 0 (Action.execute 1), Event.srv 0 (Action.execute 2),
   Event.srv 0 Action.disconnect,
   Event.upd (UpdateStateMessage.ready 0), Event.upd (UpdateStateMessage.ready 0)]

/-- The state reached by c9Events: client 0 sits in ready_set with no queue
record. -/
def c9Final : Scheduler :=
  { queues := [], ready_set := [0], has_work_set := [],
    trace := [⟨Target.pool, ⟨0, 1⟩⟩, ⟨Target.pool, ⟨0, 2⟩⟩] }

/-- C9: Ready(c) inserts c into ready_set unconditionally, even with no
ClientQueue for c, so ready_set need not stay a subset of the queue map's
keys (c9Events reaches such a state); and a stale entry is only ever removed
by a dispatch pass that finds c in ready ∩ has_work (with no queue record),
never by the message handlers: if a pass removes a ready client that has no
record, that client was in has_work_set, and neither update_queue_status nor
update_queues ever removes a client from ready_set. -/
theorem ready_insert_unconditional :
    (∀ s c, update_queue_status s (UpdateStateMessage.ready c) =
      some { s with ready_set := insertS c s.ready_set }) ∧
    (run c9Events init = some c9Final ∧ 0 ∈ c9Final.ready_set ∧
      alGet c9Final.queues 0 = none) ∧
    (∀ s s1 c, c ∈ s.ready_set → alGet s.queues c = none →
      schedule_work s = some s1 → c ∉ s1.ready_set → c ∈ s.has_work_set) ∧
    (∀ s s1 c m, update_queue_status s m = some s1 →
      c ∈ s.ready_set → c ∈ s1.ready_set) ∧
    (∀ s c d a, c ∈ s.ready_set → c ∈ (update_queues s d a).ready_set) := by
  refine ⟨fun s c => rfl, by decide, ?_, ?_, ?_⟩
  · intro s s1 c hr hga hsw hnr
    by_contra hnw
    obtain ⟨s2, acc, hg, rfl⟩ := schedule_work_eq hsw
    have hcE : c ∉ eligible s := by
      intro hc
      exact hnw (mem_eligible.mp hc).2
    obtain ⟨hready2, -, -, -, -, -, -, -, hiff⟩ := goPass_frame hg
    obtain ⟨hiffR, -⟩ := hiff c hcE
    apply hnr
    show c ∈ s2.ready_set.filter (fun x => decide (x ∉ acc.notReady))
    apply List.mem_filter.mpr
    refine ⟨by rw [hready2]; exact hr, ?_⟩
    rw [decide_eq_true_eq, hiffR]
    simp
  · intro s s1 c m h hr
    cases m with
    | ready e =>
      simp only [update_queue_status, Option.some.injEq] at h
      subst h
      exact mem_insertS.mpr (Or.inr hr)
    | txnBegin e chan =>
      cases hga : alGet s.queues e with
      | none =>
        simp only [update_queue_status, hga, Option.some.injEq] at h
        subst h
        exact hr
      | some q =>
        simp only [update_queue_status, hga] at h
        by_cases hsome : q.active_txn.isSome
        · rw [if_pos hsome] at h
          cases h
        · rw [if_neg hsome] at h
          simp only [Option.some.injEq] at h
          subst h
          exact hr
    | txnEnded e =>
      cases hga : alGet s.queues e with
      | none =>
        simp only [update_queue_status, hga, Option.some.injEq] at h
        subst h
        exact hr
      | some q =>
        simp only [update_queue_status, hga, Option.some.injEq] at h
        subst h
        exact mem_insertS.mpr (Or.inr hr)
  · intro s c d a hr
    cases a with
    | disconnect =>
      cases hga : alGet s.queues d with
      | none => simp only [update_queues, hga]; exact hr
      | some q => simp only [update_queues, hga]; exact hr
    | execute tag =>
      cases hga : alGet s.queues d with
      | none =>
        simp only [update_queues, hga]
        exact mem_insertS.mpr (Or.inr hr)
      | some q =>
        simp only [update_queues, hga]
        exact hr

/-- Concrete inconsistent state used to witness C9: a ready client with no
record but still flagged as having work. -/
def c9WState : Scheduler :=
  { queues := [], ready_set := [0], has_work_set := [0], trace := [] }

/-- The state after the witnessed C9 repair pass. -/
def c9WAfter : Scheduler :=
  { queues := [], ready_set := [], has_work_set := [], trace := [] }

/-- Witness for C9: the stale ready entry of c9WState is removed by a pass
that found it in ready ∩ has_work, confirming it was in has_work_set. -/
theorem ready_insert_unconditional_witness :
    0 ∈ c9WState.ready_set ∧ alGet c9WState.queues 0 = none ∧
    schedule_work c9WState = some c9WAfter ∧ 0 ∉ c9WAfter.ready_set ∧
    0 ∈ c9WState.has_work_set :=
  ⟨by decide, by decide, by decide, by decide,
   ready_insert_unconditional.2.2.1 c9WState c9WAfter 0 (by decide) (by decide)
     (by decide) (by decide)⟩

/-- C10: A dispatch pass is total on inconsistent bookkeeping.  If every
eligible client's record is missing or empty the pass cannot panic; and for
any successful pass, an eligible client with a missing record is removed
from both ready_set and has_work_set with nothing dispatched for it, while
an eligible client with an existing but empty record is removed only from
has_work_set, stays in ready_set, and has nothing dispatched for it. -/
theorem schedule_work_total_on_stale_entries (s : Scheduler)
    (hnd : s.ready_set.Nodup) (hW : WellOwned s) (hK : KeysNodup s) :
    ((∀ c ∈ eligible s, alGet s.queues c = none ∨
        ∃ q, alGet s.queues c = some q ∧ q.queue = []) →
      ∃ s1, schedule_work s = some s1) ∧
    (∀ s1 c, schedule_work s = some s1 → c ∈ eligible s →
      (alGet s.queues c = none →
        c ∉ s1.ready_set ∧ c ∉ s1.has_work_set ∧
        ownedBy c (newlyDispatched s s1) = []) ∧
      (∀ q, alGet s.queues c = some q → q.queue = [] →
        c ∉ s1.has_work_set ∧ c ∈ s1.ready_set ∧
        ownedBy c (newlyDispatched s s1) = [])) := by
  constructor
  · intro hall
    obtain ⟨acc1, hgp⟩ := goPass_total_of_trivial ⟨[], []⟩ hall
    refine ⟨{ s with
      ready_set := s.ready_set.filter (fun x => decide (x ∉ acc1.notReady)),
      has_work_set := s.has_work_set.filter (fun x => decide (x ∉ acc1.notWaiting)) }, ?_⟩
    unfold schedule_work
    rw [hgp]
  · intro s1 c hsw hcE
    obtain ⟨s2, acc, hg, rfl⟩ := schedule_work_eq hsw
    have hEnd : (eligible s).Nodup := hnd.filter _
    obtain ⟨l1, l2, hsplit, hcl1, hcl2⟩ := nodup_split_not_mem hEnd hcE
    obtain ⟨sA, accA, sB, accB, hA, hB, hC⟩ := goPass_split hsplit hg
    obtain ⟨wA, kA, -⟩ := goPass_inv hW hK hA
    obtain ⟨hreadyA, -, -, -, -, -, -, hframeA, hiffA⟩ := goPass_frame hA
    obtain ⟨hiffRA, -⟩ := hiffA c hcl1
    obtain ⟨tA, htA, hcntA, -⟩ := goPass_count hW hK hA
    have hnilA : ownedBy c (tA.map DispEvent.job) = [] := by
      have h0 : countC c l1 = 0 := countC_eq_zero hcl1
      have h1 := hcntA c
      rw [h0] at h1
      exact List.length_eq_zero.mp (Nat.le_zero.mp h1)
    constructor
    · intro hga
      have hgetA : alGet sA.queues c = none := by rw [hframeA c hcl1]; exact hga
      rw [dispatchOne_none_eq sA accA c hgetA] at hB
      simp only [Option.some.injEq, Prod.mk.injEq] at hB
      obtain ⟨hsAB, haccB⟩ := hB
      have wB : WellOwned sB := by rw [← hsAB]; exact wA
      have kB : KeysNodup sB := by rw [← hsAB]; exact kA
      obtain ⟨tC, htC, hcntC, -⟩ := goPass_count wB kB hC
      have hnilC : ownedBy c (tC.map DispEvent.job) = [] := by
        have h0 : countC c l2 = 0 := countC_eq_zero hcl2
        have h1 := hcntC c
        rw [h0] at h1
        exact List.length_eq_zero.mp (Nat.le_zero.mp h1)
      obtain ⟨-, -, -, -, -, hmonoRC, hmonoWC, -, -⟩ := goPass_frame hC
      have hcR : c ∈ acc.notReady := by
        apply hmonoRC
        rw [← haccB]
        exact List.mem_cons_self _ _
      have hcW : c ∈ acc.notWaiting := by
        apply hmonoWC
        rw [← haccB]
        exact List.mem_cons_self _ _
      refine ⟨?_, ?_, ?_⟩
      · intro hcmem
        have hcmem2 : c ∈ s2.ready_set.filter (fun x => decide (x ∉ acc.notReady)) := hcmem
        rcases List.mem_filter.mp hcmem2 with ⟨-, hdec⟩
        rw [decide_eq_true_eq] at hdec
        exact hdec hcR
      · intro hcmem
        have hcmem2 : c ∈ s2.has_work_set.filter
            (fun x => decide (x ∉ acc.notWaiting)) := hcmem
        rcases List.mem_filter.mp hcmem2 with ⟨-, hdec⟩
        rw [decide_eq_true_eq] at hdec
        exact hdec hcW
      · have hs2tr : s2.trace = s.trace ++ (tA ++ tC) := by
          rw [htC, ← hsAB, htA, List.append_assoc]
        have hnew : newlyDispatched s
            { s2 with
              ready_set := s2.ready_set.filter (fun x => decide (x ∉ acc.notReady)),
              has_work_set := s2.has_work_set.filter
                (fun x => decide (x ∉ acc.notWaiting)) }
            = (tA ++ tC).map DispEvent.job := by
          unfold newlyDispatched
          show (s2.trace.drop s.trace.length).map DispEvent.job = _
          rw [hs2tr, List.drop_left]
        rw [hnew, List.map_append, ownedBy_append, hnilA, hnilC]
        rfl
    · intro q hga hqnil
      have hgetA : alGet sA.queues c = some q := by rw [hframeA c hcl1]; exact hga
      rw [dispatchOne_nil_eq sA accA c hgetA hqnil] at hB
      simp only [Option.some.injEq, Prod.mk.injEq] at hB
      obtain ⟨hsAB, haccB⟩ := hB
      have wB : WellOwned sB := by rw [← hsAB]; exact wA
      have kB : KeysNodup sB := by rw [← hsAB]; exact kA
      obtain ⟨tC, htC, hcntC, -⟩ := goPass_count wB kB hC
      have hnilC : ownedBy c (tC.map DispEvent.job) = [] := by
        have h0 : countC c l2 = 0 := countC_eq_zero hcl2
        have h1 := hcntC c
        rw [h0] at h1
        exact List.length_eq_zero.mp (Nat.le_zero.mp h1)
      obtain ⟨hreadyC, -, -, -, -, -, hmonoWC, -, hiffC⟩ := goPass_frame hC
      have hcW : c ∈ acc.notWaiting := by
        apply hmonoWC
        rw [← haccB]
        exact List.mem_cons_self _ _
      have hcnotR : c ∉ acc.notReady := by
        obtain ⟨hiffRC, -⟩ := hiffC c hcl2
        rw [hiffRC, ← haccB]
        intro hmem
        have hmem2 : c ∈ accA.notReady := hmem
        have hmem3 := hiffRA.mp hmem2
        simp at hmem3
      refine ⟨?_, ?_, ?_⟩
      · intro hcmem
        have hcmem2 : c ∈ s2.has_work_set.filter
            (fun x => decide (x ∉ acc.notWaiting)) := hcmem
        rcases List.mem_filter.mp hcmem2 with ⟨-, hdec⟩
        rw [decide_eq_true_eq] at hdec
        exact hdec hcW
      · have hcr : c ∈ s.ready_set := (mem_eligible.mp hcE).1
        have hready2 : s2.ready_set = s.ready_set := by
          rw [hreadyC, ← hsAB, hreadyA]
        show c ∈ s2.ready_set.filter (fun x => decide (x ∉ acc.notReady))
        apply List.mem_filter.mpr
        refine ⟨by rw [hready2]; exact hcr, ?_⟩
        rw [decide_eq_true_eq]
        exact hcnotR
      · have hs2tr : s2.trace = s.trace ++ (tA ++ tC) := by
          rw [htC, ← hsAB, htA, List.append_assoc]
        have hnew : newlyDispatched s
            { s2 with
              ready_set := s2.ready_set.filter (fun x => decide (x ∉ acc.notReady)),
              has_work_set := s2.has_work_set.filter
                (fun x => decide (x ∉ acc.notWaiting)) }
            = (tA ++ tC).map DispEvent.job := by
          unfold newlyDispatched
          show (s2.trace.drop s.trace.length).map DispEvent.job = _
          rw [hs2tr, List.drop_left]
        rw [hnew, List.map_append, ownedBy_append, hnilA, hnilC]
        rfl

/-- Concrete inconsistent state used to witness C10: client 0 is in
ready ∩ has_work with no record at all, client 5 with an empty record. -/
def c10State : Scheduler :=
  { queues := [(5, { queue := [], active_txn := none, should_close := false })],
    ready_set := [0, 5], has_work_set := [0, 5], trace := [] }

/-- The state after the witnessed C10 repair pass. -/
def c10After : Scheduler :=
  { queues := [(5, { queue := [], active_txn := none, should_close := false })],
    ready_set := [5], has_work_set := [], trace := [] }

/-- Witness for C10: the pass over the two stale clients does not panic,
dispatches nothing, drops client 0 from both sets and drops client 5 from
has_work_set only. -/
theorem schedule_work_total_on_stale_entries_witness :
    c10State.ready_set.Nodup ∧ WellOwned c10State ∧ KeysNodup c10State ∧
    (∃ s1, schedule_work c10State = some s1) ∧
    schedule_work c10State = some c10After ∧
    0 ∈ eligible c10State ∧ alGet c10State.queues 0 = none ∧
    (0 ∉ c10After.ready_set ∧ 0 ∉ c10After.has_work_set ∧
     ownedBy 0 (newlyDispatched c10State c10After) = []) ∧
    (5 ∉ c10After.has_work_set ∧ 5 ∈ c10After.ready_set ∧
     ownedBy 5 (newlyDispatched c10State c10After) = []) := by
  have h1 : c10State.ready_set.Nodup := by decide
  have h2 : WellOwned c10State := by decide
  have h3 : KeysNodup c10State := by decide
  have hall : ∀ c ∈ eligible c10State, alGet c10State.queues c = none ∨
      ∃ q, alGet c10State.queues c = some q ∧ q.queue = [] := by
    intro c hc
    have he : eligible c10State = [0, 5] := by decide
    rw [he] at hc
    fin_cases hc
    · exact Or.inl (by decide)
    · exact Or.inr ⟨{ queue := [], active_txn := none, should_close := false },
        by decide, by decide⟩
  refine ⟨h1, h2, h3,
    (schedule_work_total_on_stale_entries c10State h1 h2 h3).1 hall,
    by decide, by decide, by decide, ?_, ?_⟩
  · exact ((schedule_work_total_on_stale_entries c10State h1 h2 h3).2 c10After 0
      (by decide) (by decide)).1 (by decide)
  · exact ((schedule_work_total_on_stale_entries c10State h1 h2 h3).2 c10After 5
      (by decide) (by decide)).2
      { queue := [], active_txn := none, should_close := false }
      (by decide) (by decide)

end LibsqlSched
